import Mathlib

/-!
Verification of the tolerant-math core of `obsidian-tolerant-math`
(`src/main.ts`, built as `main.js`).

The development shallowly embeds:
* the matcher `TOLERANT_MATH_REGEX = /(?<!\$)\$[ \t]+([^\$\n]+?)[ \t]+\$(?!\$)/g`
  together with JavaScript's backtracking `exec` semantics and the `lastIndex`
  reuse discipline;
* the Live-Preview scanner `buildDecorations` (visible ranges, selection
  suppression, native-math suppression);
* the Reading-View scanner `processElement` / `replaceTextNodeWithMath`
  (eligibility filter, fragment assembly, render-failure fallback, batching).

Text is `List Char`; the external MathJax renderer is modelled as an oracle
`renderOk : Str → Bool` telling whether `renderMath formula false` succeeds.
-/

namespace TolerantMath

/-- Document text, as a list of characters. -/
abbrev Str := List Char

/-- Horizontal whitespace accepted by the `[ \t]` classes of the regex. -/
def isPad (c : Char) : Bool := c = ' ' || c = '\t'

/-- Characters accepted by the formula-body class `[^\$\n]`. -/
def isBody (c : Char) : Bool := !(c = '$') && !(c = '\n')

/-- The character set removed by JavaScript's `String.prototype.trim`
(ECMAScript WhiteSpace and LineTerminator code points). -/
def jsWhitespaceChars : List Char :=
  [' ', '\t', '\n', '\r', '\u000B', '\u000C', '\u00A0', '\u1680',
   '\u2000', '\u2001', '\u2002', '\u2003', '\u2004', '\u2005', '\u2006',
   '\u2007', '\u2008', '\u2009', '\u200A', '\u2028', '\u2029', '\u202F',
   '\u205F', '\u3000', '\uFEFF']

/-- Whether `String.prototype.trim` removes the character `c`. -/
def isJsWS (c : Char) : Bool := jsWhitespaceChars.contains c

/-- JavaScript `String.prototype.trim`. -/
def trim (s : Str) : Str :=
  ((s.dropWhile isJsWS).reverse.dropWhile isJsWS).reverse

/-- JavaScript `text.slice(a, b)` for `0 ≤ a`, `0 ≤ b` (clamped to length). -/
def slice (s : Str) (a b : Nat) : Str := (s.take b).drop a

/-- One regex match, as produced by `TOLERANT_MATH_REGEX.exec`:
`start` is `match.index`, `stop` is `match.index + match[0].length`,
`[capStart, capStop)` is the span of the capture group `match[1]`. -/
structure RMatch where
  start : Nat
  stop : Nat
  capStart : Nat
  capStop : Nat
deriving DecidableEq, Repr

/-- Length of the run of characters satisfying `p` starting at index `a`. -/
def runLen (s : Str) (a : Nat) (p : Char → Bool) : Nat :=
  ((s.drop a).takeWhile p).length

/-- Candidate repetition counts for a greedy `+` over a run of length `n`:
`[n, n-1, …, 1]` (longest first, as a backtracking engine tries them). -/
def descRange (n : Nat) : List Nat := (List.range n).map (n - ·)

/-- Candidate repetition counts for a lazy `+?` over a run of length `n`:
`[1, 2, …, n]` (shortest first). -/
def ascRange (n : Nat) : List Nat := (List.range n).map (· + 1)

/-- Attempt of `TOLERANT_MATH_REGEX` at position `i` of `s`, following the
backtracking order of a JavaScript regex engine: the lookbehind `(?<!\$)` and
literal `\$`, the greedy left padding `[ \t]+` (longest first), the lazy body
`([^\$\n]+?)` (shortest first), the greedy right padding `[ \t]+`, the literal
`\$` and the lookahead `(?!\$)`. -/
def matchAt (s : Str) (i : Nat) : Option RMatch :=
  if s[i]? = some '$' ∧ (i = 0 ∨ ¬s[i - 1]? = some '$') then
    (descRange (runLen s (i + 1) isPad)).findSome? fun padL =>
      let b0 := i + 1 + padL
      (ascRange (runLen s b0 isBody)).findSome? fun bodyLen =>
        let b1 := b0 + bodyLen
        (descRange (runLen s b1 isPad)).findSome? fun padR =>
          let pos := b1 + padR
          if s[pos]? = some '$' ∧ ¬s[pos + 1]? = some '$' then
            some ⟨i, pos + 1, b0, b1⟩
          else none
  else none

/-- JavaScript `regex.exec(s)` with `regex.lastIndex = start`: the engine attempts the
pattern at `start`, `start + 1`, … and returns the first success. -/
def findMatchFrom (s : Str) (start : Nat) : Option RMatch :=
  (List.range s.length).findSome? fun j =>
    if start ≤ j then matchAt s j else none

/-- The `while ((match = REGEX.exec(text)) !== null)` loop: each successful
`exec` advances `lastIndex` to the end of the match.  `fuel` bounds the number
of iterations; `s.length + 1` is always sufficient because every match is
non-empty. -/
def scanLoop (s : Str) : Nat → Nat → List RMatch
  | 0, _ => []
  | fuel + 1, lastIndex =>
    match findMatchFrom s lastIndex with
    | some m => m :: scanLoop s fuel m.stop
    | none => []

/-- All matches of `TOLERANT_MATH_REGEX` over `s`, scanning from the start
(the regex's `lastIndex` reset to `0` before the loop, as the code does). -/
def allMatches (s : Str) : List RMatch := scanLoop s (s.length + 1) 0

/-- The value `match[1].trim()`: the trimmed capture group, the `formula` reported for a
match. -/
def formulaOf (s : Str) (m : RMatch) : Str := trim (slice s m.capStart m.capStop)

/-! ### The stateful regex object (`lastIndex` discipline)

`TOLERANT_MATH_REGEX` is a single module-level regex with the `g` flag, so it
carries a mutable scan cursor `lastIndex` across calls.  The embedding threads
that state explicitly. -/

/-- The mutable state of the shared `g`-flag regex object. -/
structure RegexState where
  lastIndex : Nat
deriving DecidableEq, Repr

/-- Operation `TOLERANT_MATH_REGEX.exec(s)`: searches from `lastIndex`; on success sets
`lastIndex` to the end of the match, on failure resets it to `0` (JavaScript
semantics for a global regex). -/
def execG (s : Str) (st : RegexState) : Option RMatch × RegexState :=
  match findMatchFrom s st.lastIndex with
  | some m => (some m, ⟨m.stop⟩)
  | none => (none, ⟨0⟩)

/-- Operation `TOLERANT_MATH_REGEX.test(s)`: like `exec`, returning only success. -/
def testG (s : Str) (st : RegexState) : Bool × RegexState :=
  let r := execG s st
  (r.1.isSome, r.2)

/-- The `exec` loop threaded through the shared regex state. -/
def scanLoopS (s : Str) : Nat → RegexState → List RMatch × RegexState
  | 0, st => ([], st)
  | fuel + 1, st =>
    match execG s st with
    | (some m, st') =>
      let r := scanLoopS s fuel st'
      (m :: r.1, r.2)
    | (none, st') => ([], st')

/-- A full-text scan as both scanners perform it: the explicit
`TOLERANT_MATH_REGEX.lastIndex = 0` assignment, then the `exec` loop.  The
incoming state `st` is whatever cursor an earlier scan or test left behind. -/
def codeFullScan (s : Str) (_st : RegexState) : List RMatch × RegexState :=
  let st0 : RegexState := ⟨0⟩
  scanLoopS s (s.length + 1) st0

/-- The discipline of `replaceTextNodeWithMath`: reset, one-shot `test`, reset
again, then the full `exec` loop (returning the enumerated matches). -/
def codeTestThenScan (s : Str) (_st : RegexState) : List RMatch :=
  let st0 : RegexState := ⟨0⟩
  let t := testG s st0
  if t.1 then (codeFullScan s t.2).1 else []

/-! ### Live-Preview scanner (`buildDecorations`) -/

/-- One CodeMirror replace-decoration: it hides `[lo, hi)` (absolute buffer
offsets `matchFrom`/`matchTo` in the source) behind a `TolerantMathWidget`
carrying the trimmed formula (widget equality is equality of `formula`). -/
structure Deco where
  lo : Nat
  hi : Nat
  formula : Str
deriving DecidableEq, Repr

/-- The decorations contributed by one visible range `(vr.1, vr.2)` (the
source's `from`/`to`): slice the document, reset the regex, enumerate matches,
translate to absolute offsets, then reject a match that overlaps a native math
node half-openly (`r.from < matchTo && r.to > matchFrom`) or a selection range
inclusively (`r.from <= matchTo && r.to >= matchFrom`). -/
def decoOfMatch (vf : Nat) (cursors native : List (Nat × Nat)) (text : Str)
    (m : RMatch) : Option Deco :=
  let matchFrom := vf + m.start
  let matchTo := matchFrom + (m.stop - m.start)
  let formula := formulaOf text m
  if native.any fun r => decide (r.1 < matchTo ∧ r.2 > matchFrom) then none
  else if cursors.any fun r => decide (r.1 ≤ matchTo ∧ r.2 ≥ matchFrom) then none
  else some ⟨matchFrom, matchTo, formula⟩

def decosOfRange (doc : Str) (cursors native : List (Nat × Nat))
    (vr : Nat × Nat) : List Deco :=
  (allMatches (slice doc vr.1 vr.2)).filterMap
    (decoOfMatch vr.1 cursors native (slice doc vr.1 vr.2))

/-- Function `buildDecorations`: the decoration set rebuilt for one view snapshot,
processing the visible ranges in their given order and appending accepted
matches to the `RangeSetBuilder` in discovery order.  `native` is the set of
native-math node ranges collected from the host's `syntaxTree` (the built
`main.js` variant has no such collection, i.e. `native = []`). -/
def buildDecorations (doc : Str) (visible cursors native : List (Nat × Nat)) :
    List Deco :=
  visible.flatMap (decosOfRange doc cursors native)

/-! ### Live-Preview widget (`TolerantMathWidget.toDOM`) -/

/-- The DOM content of the widget's span: either the element returned by
`renderMath(formula, false)` or, when that call throws, the literal text
`$ formula $`. -/
inductive WidgetDom where
  | rendered (formula : Str)
  | literal (content : Str)
deriving DecidableEq, Repr

/-- Method `TolerantMathWidget.toDOM`, with the renderer modelled by the oracle
`renderOk`. -/
def widgetToDOM (renderOk : Str → Bool) (formula : Str) : WidgetDom :=
  if renderOk formula then .rendered formula
  else .literal (['$', ' '] ++ formula ++ [' ', '$'])

/-! ### Reading-View scanner (`processElement` / `replaceTextNodeWithMath`) -/

/-- One child of the `DocumentFragment` assembled by
`replaceTextNodeWithMath`: a plain text node, or the element returned by
`renderMath` (tagged `tolerant-math-inline`). -/
inductive FragItem where
  | text (content : Str)
  | math (formula : Str)
deriving DecidableEq, Repr

/-- The `while ((match = REGEX.exec(text)) !== null)` body of
`replaceTextNodeWithMath`, over the list of matches the loop enumerates:
emits the plain text between matches, then per match either the rendered
element or (when `renderMath` throws) a text node with the raw `match[0]`.
Returns the fragment children and the `didReplace` flag. -/
def fragmentLoop (renderOk : Str → Bool) (text : Str) :
    List RMatch → Nat → List FragItem × Bool
  | [], _ => ([], false)
  | m :: ms, lastIndex =>
    let pre : List FragItem :=
      if lastIndex < m.start then [.text (slice text lastIndex m.start)] else []
    let f := formulaOf text m
    let item : FragItem :=
      if renderOk f then .math f else .text (slice text m.start m.stop)
    let rest := fragmentLoop renderOk text ms m.stop
    (pre ++ item :: rest.1, renderOk f || rest.2)

/-- The value of the loop's `lastIndex` variable after all matches. -/
def lastIndexAfter : List RMatch → Nat → Nat
  | [], li => li
  | m :: ms, _ => lastIndexAfter ms m.stop

/-- Method `replaceTextNodeWithMath(textNode)`: reset, one-shot `test` (early
`return false` when the text has no match), reset, fragment-assembly loop,
trailing plain text.  Returns the `didReplace` flag and the assembled
fragment children (the caller splices the fragment only when the flag is
`true`). -/
def replaceTextNodeWithMath (renderOk : Str → Bool) (text : Str) :
    Bool × List FragItem :=
  if (findMatchFrom text 0).isSome then
    let ms := allMatches text
    let body := fragmentLoop renderOk text ms 0
    let li := lastIndexAfter ms 0
    let items :=
      if li < text.length then body.1 ++ [.text (slice text li text.length)]
      else body.1
    (body.2, items)
  else (false, [])

/-- A node of the rendered Reading-View output tree handed to the markdown
post-processor. -/
inductive DomNode where
  | element (tag : String) (classes : List String) (children : List DomNode)
  | textNode (content : Str)

/-- The TreeWalker's `acceptNode` filter: a text node is eligible unless its
parent element is `CODE`/`PRE`/`MATH`/`SCRIPT`, carries one of the classes
`math`/`math-inline`/`math-block`, or the text contains no `$` at all. -/
def eligibleText (tag : String) (classes : List String) (s : Str) : Bool :=
  !(tag == "CODE" || tag == "PRE" || tag == "MATH" || tag == "SCRIPT") &&
  !(classes.contains "math" || classes.contains "math-inline" ||
    classes.contains "math-block") &&
  s.contains '$'

/-- The eligible text contents among `children` of an element with the given
tag and classes, in document order (the TreeWalker checks each text node's
immediate `parentElement` only). -/
def collectChildren (tag : String) (classes : List String) :
    List DomNode → List Str
  | [] => []
  | DomNode.textNode s :: rest =>
    (if eligibleText tag classes s then [s] else []) ++
      collectChildren tag classes rest
  | DomNode.element t c cs :: rest =>
    collectChildren t c cs ++ collectChildren tag classes rest

/-- The list of text nodes collected (in document order) by the TreeWalker of
`processElement` before any mutation. -/
def collectNode : DomNode → List Str
  | DomNode.textNode _ => []
  | DomNode.element t c cs => collectChildren t c cs

/-- A node of the tree after the Reading-View scanner ran: original content,
or an element produced by `renderMath` (class `tolerant-math-inline`). -/
inductive RNode where
  | element (tag : String) (classes : List String) (children : List RNode)
  | textNode (content : Str)
  | mathEl (formula : Str)

/-- The fragment children as tree nodes. -/
def fragToRNodes (items : List FragItem) : List RNode :=
  items.map fun
    | .text s => .textNode s
    | .math f => .mathEl f

/-- The in-tree effect of `replaceTextNodeWithMath` on one text leaf:
`textNode.parentNode.replaceChild(fragment, textNode)` runs only when
`didReplace` is `true`; otherwise the leaf stays untouched. -/
def spliceLeaf (renderOk : Str → Bool) (s : Str) : List RNode :=
  let r := replaceTextNodeWithMath renderOk s
  if r.1 then fragToRNodes r.2 else [RNode.textNode s]

/-- How many times `processElement` calls `finishRenderMath` for one subtree:
the `didRender` flag is the disjunction of the per-leaf `didReplace` results
over the collected nodes, and the flush runs once iff it is set. -/
def processElementFlushes (renderOk : Str → Bool) (root : DomNode) : Nat :=
  if (collectNode root).any (fun t => (replaceTextNodeWithMath renderOk t).1)
  then 1 else 0

/-! ### Basic lemmas about the search combinators -/

theorem findSome?_mem {α β : Type} {f : α → Option β} {b : β} :
    ∀ {l : List α}, l.findSome? f = some b → ∃ a ∈ l, f a = some b := by
  intro l
  induction l with
  | nil => intro h; simp [List.findSome?] at h
  | cons x xs ih =>
    intro h
    rw [List.findSome?] at h
    cases hx : f x with
    | some v =>
      rw [hx] at h
      exact ⟨x, List.mem_cons_self x xs, hx.trans h⟩
    | none =>
      rw [hx] at h
      obtain ⟨a, ha, hfa⟩ := ih h
      exact ⟨a, List.mem_cons_of_mem x ha, hfa⟩

theorem mem_descRange {n k : Nat} (h : k ∈ descRange n) : 1 ≤ k ∧ k ≤ n := by
  unfold descRange at h
  obtain ⟨j, hj, rfl⟩ := List.mem_map.mp h
  rw [List.mem_range] at hj
  omega

theorem mem_ascRange {n k : Nat} (h : k ∈ ascRange n) : 1 ≤ k ∧ k ≤ n := by
  unfold ascRange at h
  obtain ⟨j, hj, rfl⟩ := List.mem_map.mp h
  rw [List.mem_range] at hj
  omega

theorem takeWhile_spec {p : Char → Bool} :
    ∀ (xs : List Char) (j : Nat), j < (xs.takeWhile p).length →
      ∃ c, xs[j]? = some c ∧ p c = true := by
  intro xs
  induction xs with
  | nil => intro j h; simp at h
  | cons x xs ih =>
    intro j h
    rw [List.takeWhile_cons] at h
    by_cases hp : p x
    · simp only [hp, if_true, List.length_cons] at h
      cases j with
      | zero => exact ⟨x, by simp, hp⟩
      | succ j =>
        obtain ⟨c, hc, hpc⟩ := ih j (by omega)
        exact ⟨c, by simpa using hc, hpc⟩
    · simp [hp] at h

theorem runLen_spec (p : Char → Bool) (s : Str) (a j : Nat)
    (h : j < runLen s a p) : ∃ c, s[a + j]? = some c ∧ p c = true := by
  unfold runLen at h
  obtain ⟨c, hc, hpc⟩ := takeWhile_spec (s.drop a) j h
  rw [List.getElem?_drop] at hc
  exact ⟨c, hc, hpc⟩

/-! ### Structural facts about a successful match -/

/-- The shape facts guaranteed for every match the regex reports: the interior
spans are properly nested and non-empty, the delimiters are `$` characters,
and the character immediately inside each delimiter is a space or a tab. -/
structure MatchShape (s : Str) (m : RMatch) : Prop where
  start_lt_cap : m.start + 1 < m.capStart + 1
  cap_nonempty : m.capStart < m.capStop
  cap_lt_stop : m.capStop + 1 < m.stop
  stop_le_len : m.stop ≤ s.length
  openDollar : s[m.start]? = some '$'
  openPad : ∃ c, s[m.start + 1]? = some c ∧ isPad c = true
  closeDollar : s[m.stop - 1]? = some '$'
  closePad : ∃ c, s[m.stop - 2]? = some c ∧ isPad c = true

theorem matchAt_shape {s : Str} {i : Nat} {m : RMatch}
    (h : matchAt s i = some m) : m.start = i ∧ MatchShape s m := by
  unfold matchAt at h
  split at h
  case isFalse => exact absurd h (by simp)
  case isTrue hc =>
    obtain ⟨padL, hpadLmem, h1⟩ := findSome?_mem h
    obtain ⟨bodyLen, hbodymem, h2⟩ := findSome?_mem h1
    obtain ⟨padR, hpadRmem, h3⟩ := findSome?_mem h2
    simp only at h3
    split at h3
    case isFalse => exact absurd h3 (by simp)
    case isTrue hc2 =>
      obtain ⟨hdL, hdLle⟩ := mem_descRange hpadLmem
      obtain ⟨hbL, hbLle⟩ := mem_ascRange hbodymem
      obtain ⟨hdR, hdRle⟩ := mem_descRange hpadRmem
      obtain rfl : m = ⟨i, i + 1 + padL + bodyLen + padR + 1,
          i + 1 + padL, i + 1 + padL + bodyLen⟩ := by
        cases h3; rfl
      have hstople : i + 1 + padL + bodyLen + padR < s.length := by
        have h4 := hc2.1
        by_contra hge
        rw [List.getElem?_eq_none (by omega)] at h4
        exact Option.noConfusion h4
      refine ⟨rfl, ?_, ?_, ?_, ?_, ?_, ?_, ?_, ?_⟩
      · show i + 1 < i + 1 + padL + 1
        omega
      · show i + 1 + padL < i + 1 + padL + bodyLen
        omega
      · show i + 1 + padL + bodyLen + 1 < i + 1 + padL + bodyLen + padR + 1
        omega
      · show i + 1 + padL + bodyLen + padR + 1 ≤ s.length
        omega
      · exact hc.1
      · obtain ⟨c, hc', hp⟩ := runLen_spec isPad s (i + 1) 0 (by omega)
        exact ⟨c, by simpa using hc', hp⟩
      · show s[i + 1 + padL + bodyLen + padR + 1 - 1]? = some '$'
        have he : i + 1 + padL + bodyLen + padR + 1 - 1 =
            i + 1 + padL + bodyLen + padR := by omega
        rw [he]
        exact hc2.1
      · show ∃ c, s[i + 1 + padL + bodyLen + padR + 1 - 2]? = some c ∧
          isPad c = true
        obtain ⟨c, hc', hp⟩ := runLen_spec isPad s
          (i + 1 + padL + bodyLen) (padR - 1) (by omega)
        refine ⟨c, ?_, hp⟩
        have he : i + 1 + padL + bodyLen + (padR - 1) =
            i + 1 + padL + bodyLen + padR + 1 - 2 := by omega
        rwa [he] at hc'

theorem findMatchFrom_spec {s : Str} {li : Nat} {m : RMatch}
    (h : findMatchFrom s li = some m) :
    li ≤ m.start ∧ matchAt s m.start = some m := by
  unfold findMatchFrom at h
  obtain ⟨j, _, hj⟩ := findSome?_mem h
  split at hj
  case isFalse => exact absurd hj (by simp)
  case isTrue hle =>
    obtain ⟨rfl, _⟩ := matchAt_shape hj
    exact ⟨hle, hj⟩

theorem scanLoop_spec (s : Str) :
    ∀ (fuel li : Nat),
      (∀ m ∈ scanLoop s fuel li, li ≤ m.start ∧ matchAt s m.start = some m) ∧
      (scanLoop s fuel li).Pairwise (fun a b => a.stop ≤ b.start) := by
  intro fuel
  induction fuel with
  | zero => intro li; simp [scanLoop]
  | succ n ih =>
    intro li
    rw [scanLoop]
    cases hf : findMatchFrom s li with
    | none => simp
    | some m =>
      obtain ⟨hle, hm⟩ := findMatchFrom_spec hf
      obtain ⟨-, hshape⟩ := matchAt_shape hm
      have hlt : m.start < m.stop := by
        have h1 := hshape.start_lt_cap
        have h2 := hshape.cap_nonempty
        have h3 := hshape.cap_lt_stop
        omega
      constructor
      · show ∀ m' ∈ m :: scanLoop s n m.stop,
          li ≤ m'.start ∧ matchAt s m'.start = some m'
        intro m' hm'
        rcases List.mem_cons.mp hm' with rfl | htail
        · exact ⟨hle, hm⟩
        · obtain ⟨h1, h2⟩ := (ih m.stop).1 m' htail
          exact ⟨by omega, h2⟩
      · show List.Pairwise (fun a b => a.stop ≤ b.start)
          (m :: scanLoop s n m.stop)
        rw [List.pairwise_cons]
        exact ⟨fun m' hm' => ((ih m.stop).1 m' hm').1, (ih m.stop).2⟩

theorem allMatches_spec (s : Str) :
    (∀ m ∈ allMatches s, matchAt s m.start = some m ∧ MatchShape s m) ∧
    (allMatches s).Pairwise (fun a b => a.stop ≤ b.start) := by
  obtain ⟨h1, h2⟩ := scanLoop_spec s (s.length + 1) 0
  exact ⟨fun m hm => ⟨(h1 m hm).2, (matchAt_shape (h1 m hm).2).2⟩, h2⟩

theorem allMatches_eq_nil {s : Str} (h : findMatchFrom s 0 = none) :
    allMatches s = [] := by
  unfold allMatches
  rw [scanLoop, h]

/-! ### Lemmas about the Live-Preview scanner -/

theorem decoOfMatch_inv {vf : Nat} {cursors native : List (Nat × Nat)}
    {text : Str} {m : RMatch} {d : Deco}
    (h : decoOfMatch vf cursors native text m = some d) :
    d = ⟨vf + m.start, vf + m.start + (m.stop - m.start), formulaOf text m⟩ ∧
    (native.any fun r =>
      decide (r.1 < vf + m.start + (m.stop - m.start) ∧ r.2 > vf + m.start))
      = false ∧
    (cursors.any fun r =>
      decide (r.1 ≤ vf + m.start + (m.stop - m.start) ∧ r.2 ≥ vf + m.start))
      = false := by
  unfold decoOfMatch at h
  dsimp only at h
  split at h
  case isTrue => exact absurd h (by simp)
  case isFalse hn =>
    split at h
    case isTrue => exact absurd h (by simp)
    case isFalse hcur =>
      refine ⟨by cases h; rfl, ?_, ?_⟩
      · exact Bool.not_eq_true _ ▸ hn
      · exact Bool.not_eq_true _ ▸ hcur

theorem mem_decosOfRange {doc : Str} {cursors native : List (Nat × Nat)}
    {vr : Nat × Nat} {d : Deco} (hd : d ∈ decosOfRange doc cursors native vr) :
    ∃ m ∈ allMatches (slice doc vr.1 vr.2),
      decoOfMatch vr.1 cursors native (slice doc vr.1 vr.2) m = some d := by
  unfold decosOfRange at hd
  exact List.mem_filterMap.mp hd

theorem length_slice (s : Str) (a b : Nat) :
    (slice s a b).length = min b s.length - a := by
  unfold slice
  rw [List.length_drop, List.length_take]

theorem decosOfRange_bounds {doc : Str} {cursors native : List (Nat × Nat)}
    {vr : Nat × Nat} {d : Deco} (hd : d ∈ decosOfRange doc cursors native vr) :
    vr.1 ≤ d.lo ∧ d.lo < d.hi ∧ d.hi ≤ vr.2 := by
  obtain ⟨m, hm, hf⟩ := mem_decosOfRange hd
  obtain ⟨-, hshape⟩ := (allMatches_spec (slice doc vr.1 vr.2)).1 m hm
  obtain ⟨rfl, -, -⟩ := decoOfMatch_inv hf
  have h1 := hshape.start_lt_cap
  have h2 := hshape.cap_nonempty
  have h3 := hshape.cap_lt_stop
  have h4 := hshape.stop_le_len
  have h5 := length_slice doc vr.1 vr.2
  refine ⟨?_, ?_, ?_⟩
  · show vr.1 ≤ vr.1 + m.start
    omega
  · show vr.1 + m.start < vr.1 + m.start + (m.stop - m.start)
    omega
  · show vr.1 + m.start + (m.stop - m.start) ≤ vr.2
    omega

theorem pairwise_filterMap_mem {α β : Type} {R : α → α → Prop}
    {S : β → β → Prop} {f : α → Option β} :
    ∀ {l : List α}, l.Pairwise R →
      (∀ a ∈ l, ∀ b ∈ l, R a b →
        ∀ c, f a = some c → ∀ d, f b = some d → S c d) →
      (l.filterMap f).Pairwise S := by
  intro l
  induction l with
  | nil => intro _ _; simp
  | cons a l ih =>
    intro hp hmem
    rw [List.pairwise_cons] at hp
    rw [List.filterMap_cons]
    cases hfa : f a with
    | none =>
      exact ih hp.2 fun x hx y hy hR c hc d hd =>
        hmem x (List.mem_cons_of_mem a hx) y (List.mem_cons_of_mem a hy)
          hR c hc d hd
    | some c =>
      rw [List.pairwise_cons]
      constructor
      · intro d hd
        obtain ⟨b, hb, hfb⟩ := List.mem_filterMap.mp hd
        exact hmem a (List.mem_cons_self a l) b (List.mem_cons_of_mem a hb)
          (hp.1 b hb) c hfa d hfb
      · exact ih hp.2 fun x hx y hy hR c' hc' d hd =>
          hmem x (List.mem_cons_of_mem a hx) y (List.mem_cons_of_mem a hy)
            hR c' hc' d hd

theorem decosOfRange_pairwise (doc : Str) (cursors native : List (Nat × Nat))
    (vr : Nat × Nat) :
    (decosOfRange doc cursors native vr).Pairwise
      (fun d e => d.hi ≤ e.lo ∧ d.lo < e.lo) := by
  unfold decosOfRange
  refine pairwise_filterMap_mem (allMatches_spec (slice doc vr.1 vr.2)).2 ?_
  intro a ha b hb hR c hc d hd
  obtain ⟨-, hashape⟩ := (allMatches_spec (slice doc vr.1 vr.2)).1 a ha
  obtain ⟨rfl, -, -⟩ := decoOfMatch_inv hc
  obtain ⟨rfl, -, -⟩ := decoOfMatch_inv hd
  have h1 := hashape.start_lt_cap
  have h2 := hashape.cap_nonempty
  have h3 := hashape.cap_lt_stop
  constructor
  · show vr.1 + a.start + (a.stop - a.start) ≤ vr.1 + b.start
    omega
  · show vr.1 + a.start < vr.1 + b.start
    omega

theorem mem_buildDecorations {doc : Str}
    {visible cursors native : List (Nat × Nat)} {d : Deco}
    (hd : d ∈ buildDecorations doc visible cursors native) :
    ∃ vr ∈ visible, d ∈ decosOfRange doc cursors native vr := by
  unfold buildDecorations at hd
  exact List.mem_flatMap.mp hd

theorem buildDecorations_pairwise (doc : Str)
    (visible cursors native : List (Nat × Nat))
    (hv : visible.Pairwise fun a b => a.2 ≤ b.1) :
    (buildDecorations doc visible cursors native).Pairwise
      (fun d e => d.hi ≤ e.lo ∧ d.lo < e.lo) := by
  induction visible with
  | nil => simp [buildDecorations]
  | cons v vs ih =>
    rw [List.pairwise_cons] at hv
    show List.Pairwise _ ((v :: vs).flatMap (decosOfRange doc cursors native))
    rw [List.flatMap_cons, List.pairwise_append]
    refine ⟨decosOfRange_pairwise doc cursors native v, ih hv.2, ?_⟩
    intro d hd e he
    obtain ⟨u, hu, he'⟩ := List.mem_flatMap.mp he
    have hdb := decosOfRange_bounds hd
    have heb := decosOfRange_bounds he'
    have hvu := hv.1 u hu
    exact ⟨by omega, by omega⟩

theorem buildDecorations_cursor_free {doc : Str}
    {visible cursors native : List (Nat × Nat)} {d : Deco}
    (hd : d ∈ buildDecorations doc visible cursors native)
    {r : Nat × Nat} (hr : r ∈ cursors) : ¬(r.1 ≤ d.hi ∧ r.2 ≥ d.lo) := by
  obtain ⟨vr, hvr, hd'⟩ := mem_buildDecorations hd
  obtain ⟨m, hm, hf⟩ := mem_decosOfRange hd'
  obtain ⟨rfl, -, hcur⟩ := decoOfMatch_inv hf
  intro hcon
  have ht : (cursors.any fun r =>
      decide (r.1 ≤ vr.1 + m.start + (m.stop - m.start) ∧
        r.2 ≥ vr.1 + m.start)) = true :=
    List.any_eq_true.mpr ⟨r, hr, decide_eq_true hcon⟩
  rw [hcur] at ht
  exact Bool.noConfusion ht

theorem buildDecorations_native_free {doc : Str}
    {visible cursors native : List (Nat × Nat)} {d : Deco}
    (hd : d ∈ buildDecorations doc visible cursors native)
    {r : Nat × Nat} (hr : r ∈ native) : ¬(r.1 < d.hi ∧ r.2 > d.lo) := by
  obtain ⟨vr, hvr, hd'⟩ := mem_buildDecorations hd
  obtain ⟨m, hm, hf⟩ := mem_decosOfRange hd'
  obtain ⟨rfl, hnat, -⟩ := decoOfMatch_inv hf
  intro hcon
  have ht : (native.any fun r =>
      decide (r.1 < vr.1 + m.start + (m.stop - m.start) ∧
        r.2 > vr.1 + m.start)) = true :=
    List.any_eq_true.mpr ⟨r, hr, decide_eq_true hcon⟩
  rw [hnat] at ht
  exact Bool.noConfusion ht

/-! ### Lemmas about the Reading-View scanner -/

theorem fragmentLoop_mem (renderOk : Str → Bool) (text : Str) :
    ∀ (ms : List RMatch) (li : Nat) (m : RMatch), m ∈ ms →
      (if renderOk (formulaOf text m) then FragItem.math (formulaOf text m)
       else FragItem.text (slice text m.start m.stop))
        ∈ (fragmentLoop renderOk text ms li).1 := by
  intro ms
  induction ms with
  | nil => intro li m hm; simp at hm
  | cons a ms ih =>
    intro li m hm
    rw [fragmentLoop]
    dsimp only
    rcases List.mem_cons.mp hm with rfl | htail
    · exact List.mem_append_right _ (List.mem_cons_self _ _)
    · exact List.mem_append_right _
        (List.mem_cons_of_mem _ (ih a.stop m htail))

theorem fragmentLoop_did (renderOk : Str → Bool) (text : Str) :
    ∀ (ms : List RMatch) (li : Nat),
      (fragmentLoop renderOk text ms li).2 =
        ms.any fun m => renderOk (formulaOf text m) := by
  intro ms
  induction ms with
  | nil => intro li; rfl
  | cons a ms ih =>
    intro li
    rw [fragmentLoop]
    dsimp only
    rw [ih a.stop, List.any_cons]

theorem replaceTextNode_mem (renderOk : Str → Bool) (text : Str) (m : RMatch)
    (hm : m ∈ allMatches text) :
    (if renderOk (formulaOf text m) then FragItem.math (formulaOf text m)
     else FragItem.text (slice text m.start m.stop))
      ∈ (replaceTextNodeWithMath renderOk text).2 := by
  unfold replaceTextNodeWithMath
  split
  case isTrue =>
    dsimp only
    split
    · exact List.mem_append_left _ (fragmentLoop_mem renderOk text _ 0 m hm)
    · exact fragmentLoop_mem renderOk text _ 0 m hm
  case isFalse hns =>
    rw [allMatches_eq_nil (Option.not_isSome_iff_eq_none.mp hns)] at hm
    exact absurd hm (List.not_mem_nil m)

theorem replaceTextNode_did (renderOk : Str → Bool) (text : Str) :
    (replaceTextNodeWithMath renderOk text).1 =
      (allMatches text).any fun m => renderOk (formulaOf text m) := by
  unfold replaceTextNodeWithMath
  split
  case isTrue =>
    exact fragmentLoop_did renderOk text _ 0
  case isFalse hns =>
    rw [allMatches_eq_nil (Option.not_isSome_iff_eq_none.mp hns)]
    rfl

theorem replaceTextNode_did_iff (renderOk : Str → Bool) (text : Str) :
    (replaceTextNodeWithMath renderOk text).1 = true ↔
      ∃ m ∈ allMatches text, renderOk (formulaOf text m) = true := by
  rw [replaceTextNode_did]
  exact List.any_eq_true

/-! ### Lemmas about the shared regex state -/

theorem scanLoopS_fst (s : Str) :
    ∀ (fuel li : Nat), (scanLoopS s fuel ⟨li⟩).1 = scanLoop s fuel li := by
  intro fuel
  induction fuel with
  | zero => intro li; rfl
  | succ n ih =>
    intro li
    cases hf : findMatchFrom s li with
    | some m => simp [scanLoopS, scanLoop, execG, hf, ih]
    | none => simp [scanLoopS, scanLoop, execG, hf]

theorem codeFullScan_fst (s : Str) (st : RegexState) :
    (codeFullScan s st).1 = allMatches s :=
  scanLoopS_fst s (s.length + 1) 0

/-! ## The claims -/

/-- C1: a dollar-delimited span lacking interior horizontal whitespace on one
or both sides produces no Match: `$formula$`, `$ formula$` and `$formula $`
each yield zero Matches, the text `The price is $5 and $10.` yields zero
Matches, and in general every Match has a `$` at each end with a space or tab
immediately inside both the opening and the closing delimiter. -/
theorem c1_interior_padding_required :
    allMatches "$formula$".data = [] ∧
    allMatches "$ formula$".data = [] ∧
    allMatches "$formula $".data = [] ∧
    allMatches "The price is $5 and $10.".data = [] ∧
    ∀ (s : Str) (i : Nat) (m : RMatch), matchAt s i = some m →
      s[m.start]? = some '$' ∧
      (∃ c, s[m.start + 1]? = some c ∧ isPad c = true) ∧
      s[m.stop - 1]? = some '$' ∧
      (∃ c, s[m.stop - 2]? = some c ∧ isPad c = true) := by
  refine ⟨by decide, by decide, by decide, by decide, ?_⟩
  intro s i m h
  obtain ⟨-, hs⟩ := matchAt_shape h
  exact ⟨hs.openDollar, hs.openPad, hs.closeDollar, hs.closePad⟩

theorem c1_witness :
    ("$ a $".data)[(0 : Nat)]? = some '$' ∧
    (∃ c, ("$ a $".data)[(1 : Nat)]? = some c ∧ isPad c = true) ∧
    ("$ a $".data)[(4 : Nat)]? = some '$' ∧
    (∃ c, ("$ a $".data)[(3 : Nat)]? = some c ∧ isPad c = true) :=
  c1_interior_padding_required.2.2.2.2 "$ a $".data 0 ⟨0, 5, 2, 3⟩ (by decide)

/-- C2: in the Live-Range Scanner a Match is suppressed whenever any selection
range overlaps it under the inclusive test
`selectionFrom <= matchTo && selectionTo >= matchFrom`: every emitted
decoration overlaps no selection range inclusively, and a cursor sitting
exactly on a match boundary (`selection.from == matchTo` or
`selection.to == matchFrom`) suppresses the Match. -/
theorem c2_cursor_overlap_suppression :
    (∀ (doc : Str) (visible cursors native : List (Nat × Nat)) (d : Deco),
      d ∈ buildDecorations doc visible cursors native →
      ∀ r ∈ cursors, ¬(r.1 ≤ d.hi ∧ r.2 ≥ d.lo)) ∧
    buildDecorations "$ a $".data [(0, 5)] [(5, 5)] [] = [] ∧
    buildDecorations "$ a $".data [(0, 5)] [(0, 0)] [] = [] ∧
    buildDecorations "$ a $".data [(0, 5)] [(6, 7)] [] = [⟨0, 5, ['a']⟩] := by
  refine ⟨?_, by decide, by decide, by decide⟩
  intro doc visible cursors native d hd r hr
  exact buildDecorations_cursor_free hd hr

theorem c2_witness :
    ¬((6 : Nat) ≤ (Deco.mk 0 5 ['a']).hi ∧ (7 : Nat) ≥ (Deco.mk 0 5 ['a']).lo) :=
  c2_cursor_overlap_suppression.1 "$ a $".data [(0, 5)] [(6, 7)] []
    ⟨0, 5, ['a']⟩ (by decide) (6, 7) (by decide)

/-- C3: in the Live-Range Scanner a Match is rejected whenever it overlaps a
native math range under the half-open test
`nativeFrom < matchTo && nativeTo > matchFrom`: every emitted decoration
overlaps no native range half-openly, while a native range that merely touches
a match boundary (ending at `matchFrom` or starting at `matchTo`) does not
suppress the Match. -/
theorem c3_native_overlap_suppression :
    (∀ (doc : Str) (visible cursors native : List (Nat × Nat)) (d : Deco),
      d ∈ buildDecorations doc visible cursors native →
      ∀ r ∈ native, ¬(r.1 < d.hi ∧ r.2 > d.lo)) ∧
    buildDecorations "$ a $".data [(0, 5)] [] [(5, 9)] = [⟨0, 5, ['a']⟩] ∧
    buildDecorations "xy$ a $".data [(0, 7)] [] [(0, 2)] = [⟨2, 7, ['a']⟩] ∧
    buildDecorations "$ a $".data [(0, 5)] [] [(4, 9)] = [] := by
  refine ⟨?_, by decide, by decide, by decide⟩
  intro doc visible cursors native d hd r hr
  exact buildDecorations_native_free hd hr

theorem c3_witness :
    ¬((5 : Nat) < (Deco.mk 0 5 ['a']).hi ∧ (9 : Nat) > (Deco.mk 0 5 ['a']).lo) :=
  c3_native_overlap_suppression.1 "$ a $".data [(0, 5)] [] [(5, 9)]
    ⟨0, 5, ['a']⟩ (by decide) (5, 9) (by decide)

/-- C4 counterexample: the input `$   $` (three interior spaces) produces one
Match whose reported formula — the trimmed capture — is the empty string, so
"the reported formula value is a non-empty string" fails on the code: the body
class `[^\$\n]` admits spaces and tabs, and trimming an all-whitespace capture
leaves nothing. -/
theorem c4_counterexample :
    allMatches "$   $".data = [⟨0, 5, 2, 3⟩] ∧
    formulaOf "$   $".data ⟨0, 5, 2, 3⟩ = [] := by
  exact ⟨by decide, by decide⟩

/-- C4 (amended): for every Match the Matcher produces, the captured interior
`match[1]` (before trimming) is non-empty; the trimmed `formula` can be empty
when the capture consists entirely of horizontal whitespace. -/
theorem c4_capture_nonempty :
    ∀ (s : Str) (i : Nat) (m : RMatch), matchAt s i = some m →
      m.capStart < m.capStop ∧ slice s m.capStart m.capStop ≠ [] := by
  intro s i m h
  obtain ⟨-, hs⟩ := matchAt_shape h
  have h1 := hs.cap_nonempty
  have h2 := hs.cap_lt_stop
  have h3 := hs.stop_le_len
  refine ⟨h1, ?_⟩
  have hlen : 0 < (slice s m.capStart m.capStop).length := by
    rw [length_slice]
    omega
  exact List.length_pos.mp hlen

theorem c4_witness :
    (2 : Nat) < 3 ∧ slice "$ a $".data 2 3 ≠ [] :=
  c4_capture_nonempty "$ a $".data 0 ⟨0, 5, 2, 3⟩ (by decide)

/-- C5: the input `$ a $ and $ b $` yields exactly two Matches with
non-overlapping spans `[0, 5)` and `[10, 15)` and formulas `a` and `b` — the
lazy body does not merge the two formulas into one match. -/
theorem c5_two_independent_formulas :
    allMatches "$ a $ and $ b $".data = [⟨0, 5, 2, 3⟩, ⟨10, 15, 12, 13⟩] ∧
    (allMatches "$ a $ and $ b $".data).map
      (formulaOf "$ a $ and $ b $".data) = [['a'], ['b']] ∧
    (allMatches "$ a $ and $ b $".data).Pairwise
      (fun m1 m2 => m1.stop ≤ m2.start) := by
  exact ⟨by decide, by decide, by decide⟩

/-- C6: for every rebuild of the Live-Range Scanner — any document, selection
and native ranges, and any visible ranges satisfying the host's input
contract (ordered and non-overlapping, `a.to ≤ b.from` pairwise) — the
produced decoration set has strictly ascending start offsets and no two
decorations overlap. -/
theorem c6_decorations_sorted :
    ∀ (doc : Str) (visible cursors native : List (Nat × Nat)),
      visible.Pairwise (fun a b => a.2 ≤ b.1) →
      (buildDecorations doc visible cursors native).Pairwise
        (fun d e => d.hi ≤ e.lo ∧ d.lo < e.lo) :=
  fun doc visible cursors native hv =>
    buildDecorations_pairwise doc visible cursors native hv

theorem c6_witness :
    (buildDecorations "$ a $ $ b $".data [(0, 5), (6, 12)] [] []).Pairwise
      (fun d e => d.hi ≤ e.lo ∧ d.lo < e.lo) :=
  c6_decorations_sorted "$ a $ $ b $".data [(0, 5), (6, 12)] [] [] (by decide)

/-- C7: when a render call fails for a Match the output preserves the literal
original text — in the live-widget case the span's content is the string
`$ formula $` rebuilt from the trimmed formula, and in the static-tree case
the fragment contains a text node with the exact raw matched span — while a
Match whose render succeeds always contributes its rendered element, so one
match's failure never aborts the scan nor prevents other matches in the same
batch from rendering. -/
theorem c7_render_failure_fallback :
    (∀ (renderOk : Str → Bool) (f : Str), renderOk f = false →
      widgetToDOM renderOk f =
        WidgetDom.literal (['$', ' '] ++ f ++ [' ', '$'])) ∧
    (∀ (renderOk : Str → Bool) (text : Str) (m : RMatch),
      m ∈ allMatches text →
      (renderOk (formulaOf text m) = false →
        FragItem.text (slice text m.start m.stop)
          ∈ (replaceTextNodeWithMath renderOk text).2) ∧
      (renderOk (formulaOf text m) = true →
        FragItem.math (formulaOf text m)
          ∈ (replaceTextNodeWithMath renderOk text).2)) := by
  constructor
  · intro renderOk f hf
    simp [widgetToDOM, hf]
  · intro renderOk text m hm
    constructor
    · intro hf
      have h := replaceTextNode_mem renderOk text m hm
      rw [if_neg (by rw [hf]; exact Bool.false_ne_true)] at h
      exact h
    · intro hf
      have h := replaceTextNode_mem renderOk text m hm
      rw [if_pos hf] at h
      exact h

theorem c7_witness :
    FragItem.text (slice "$ a $ and $ b $".data 0 5)
      ∈ (replaceTextNodeWithMath (fun f => f == ['b'])
          "$ a $ and $ b $".data).2 ∧
    FragItem.math (formulaOf "$ a $ and $ b $".data ⟨10, 15, 12, 13⟩)
      ∈ (replaceTextNodeWithMath (fun f => f == ['b'])
          "$ a $ and $ b $".data).2 := by
  constructor
  · exact (c7_render_failure_fallback.2 (fun f => f == ['b'])
      "$ a $ and $ b $".data ⟨0, 5, 2, 3⟩ (by decide)).1 (by decide)
  · exact (c7_render_failure_fallback.2 (fun f => f == ['b'])
      "$ a $ and $ b $".data ⟨10, 15, 12, 13⟩ (by decide)).2 (by decide)

/-- C8: for every subtree, `processElement` invokes the batch flush
(`finishRenderMath`) exactly once if at least one match in some collected leaf
rendered successfully and not at all otherwise — render failures alone never
trigger a flush. -/
theorem c8_flush_once_iff_success :
    ∀ (renderOk : Str → Bool) (root : DomNode),
      (processElementFlushes renderOk root = 1 ↔
        ∃ t ∈ collectNode root, ∃ m ∈ allMatches t,
          renderOk (formulaOf t m) = true) ∧
      (processElementFlushes renderOk root = 0 ∨
        processElementFlushes renderOk root = 1) := by
  intro renderOk root
  constructor
  · unfold processElementFlushes
    split
    case isTrue h =>
      obtain ⟨t, ht, hdid⟩ := List.any_eq_true.mp h
      obtain ⟨m, hm, hr⟩ := (replaceTextNode_did_iff renderOk t).mp hdid
      exact iff_of_true rfl ⟨t, ht, m, hm, hr⟩
    case isFalse h =>
      refine iff_of_false (by omega) ?_
      rintro ⟨t, ht, m, hm, hr⟩
      exact h (List.any_eq_true.mpr
        ⟨t, ht, (replaceTextNode_did_iff renderOk t).mpr ⟨m, hm, hr⟩⟩)
  · unfold processElementFlushes
    split
    · exact Or.inr rfl
    · exact Or.inl rfl

/-- C9: a full-text scan is independent of the matcher's cursor state left by
any earlier scan or existence test, because `lastIndex` is reset to `0` before
every full scan and before the one-shot test that precedes one: scanning after
any prior state — including the state left by a scan of the same or a
different string, or by a test — yields exactly the matches of a fresh scan. -/
theorem c9_scan_state_independence :
    (∀ (s : Str) (st : RegexState), (codeFullScan s st).1 = allMatches s) ∧
    (∀ (s : Str) (st : RegexState), codeTestThenScan s st = allMatches s) ∧
    (∀ (s0 s : Str) (st : RegexState),
      (codeFullScan s (codeFullScan s0 st).2).1 = allMatches s ∧
      (codeFullScan s (testG s0 st).2).1 = allMatches s) := by
  refine ⟨fun s st => codeFullScan_fst s st, ?_, ?_⟩
  · intro s st
    unfold codeTestThenScan testG execG
    dsimp only
    cases hf : findMatchFrom s 0 with
    | some m => simp [hf, codeFullScan_fst]
    | none => simp [hf, allMatches_eq_nil hf]
  · intro s0 s st
    exact ⟨codeFullScan_fst s _, codeFullScan_fst s _⟩

/-- C10: if every render call for the Matches within one text leaf throws,
the leaf stays entirely unchanged in the tree — `replaceTextNodeWithMath`
returns `false`, the assembled fallback fragment is discarded rather than
spliced in, and the leaf contributes nothing to the subtree's flush
condition. -/
theorem c10_all_fail_leaf_unchanged :
    ∀ (renderOk : Str → Bool) (s : Str),
      (∀ m ∈ allMatches s, renderOk (formulaOf s m) = false) →
      (replaceTextNodeWithMath renderOk s).1 = false ∧
      spliceLeaf renderOk s = [RNode.textNode s] := by
  intro renderOk s h
  have hdid : (replaceTextNodeWithMath renderOk s).1 = false := by
    rw [replaceTextNode_did]
    cases hb : (allMatches s).any (fun m => renderOk (formulaOf s m)) with
    | false => rfl
    | true =>
      obtain ⟨m, hm, hr⟩ := List.any_eq_true.mp hb
      rw [h m hm] at hr
      exact Bool.noConfusion hr
  refine ⟨hdid, ?_⟩
  simp [spliceLeaf, hdid]

theorem c10_witness :
    (replaceTextNodeWithMath (fun _ => false) "$ a $".data).1 = false ∧
    spliceLeaf (fun _ => false) "$ a $".data =
      [RNode.textNode "$ a $".data] :=
  c10_all_fail_leaf_unchanged (fun _ => false) "$ a $".data (by decide)

end TolerantMath
